import Mathlib

/-!
Verification of the InterCom transform pipeline
(src/intercom_binaural.py and src/intercom_dwt.py).

Audio samples and wavelet coefficients are fixed-width signed integers;
they are modelled as `Int`, with explicit reduction modulo 2^16 at every
point where the numpy arrays wrap, and the numpy bitwise operators are
modelled on the two's-complement bits of each stored word.  The external
collaborators (pywt transforms, the `Intercom_buffer` jitter buffer,
`math.log`, the random probe) are kept abstract or modelled from the spec,
as noted on each definition.
-/

namespace InterCom

/-- Modelled from the spec (§3, §6: chunks are fixed-width signed integer
samples; the buffer stores 16-bit words): `toInt16 w` is the value of the
low 16 bits of `w` read back as a two's-complement signed 16-bit word. -/
def toInt16 (w : Int) : Int := (w + 32768) % 65536 - 32768

/-- Elementwise in-place `-=` on 16-bit sample arrays (numpy wraparound). -/
def sub16 (a b : Int) : Int := toInt16 (a - b)

/-- Elementwise in-place `+=` on 16-bit sample arrays (numpy wraparound). -/
def add16 (a b : Int) : Int := toInt16 (a + b)

/-- A stereo chunk: the two columns `[:,0]` and `[:,1]` of the numpy array. -/
structure Chunk where
  ch0 : List Int
  ch1 : List Int
deriving DecidableEq

/-- Lines 114 to 116 of src/intercom_dwt.py, per element:
`signs = indata & 0x8000; magnitudes = abs(indata); indata = signs | magnitudes`.
The AND acts on the two's-complement bits of the 16-bit sample, i.e. on
`x mod 2^16`; `abs` is exact on `-32767 ≤ x ≤ 32767` (at the single excluded
value -32768 the numpy int16 abs wraps, and every statement below stays away
from it).  The packed word is the nonnegative combined value. -/
def packWord (x : Int) : Int :=
  ((((x % 65536).toNat &&& 0x8000) ||| x.natAbs : Nat) : Int)

/-- Line 119: `signs = chunk >> 15`, the numpy arithmetic right shift on the
signed stored word (`Int.shiftRight` is exactly this two's-complement shift). -/
def unpackSign (c : Int) : Int := c >>> 15

/-- Line 120: `magnitudes = chunk & 0x7FFF`, again on the two's-complement
bits of the stored 16-bit word. -/
def unpackMag (c : Int) : Int := (((c % 65536).toNat &&& 0x7FFF : Nat) : Int)

/-- Lines 119 to 121: `chunk = magnitudes + magnitudes*signs*2`. -/
def unpackWord (c : Int) : Int := unpackMag c + unpackMag c * unpackSign c * 2

/-! Helper lemmas about the packed sign-magnitude words. -/

theorem toInt16_eq_self {x : Int} (h0 : -32768 ≤ x) (h1 : x ≤ 32767) :
    toInt16 x = x := by
  unfold toInt16; omega

theorem packWord_of_nonneg {x : Int} (h0 : 0 ≤ x) (h1 : x ≤ 32767) :
    packWord x = x := by
  obtain ⟨n, rfl⟩ := Int.eq_ofNat_of_zero_le h0
  have hn : n < 32768 := by omega
  unfold packWord
  have h2 : ((n : Int) % 65536) = (n : Int) := by omega
  rw [h2, Int.toNat_natCast]
  have e15 : (0x8000 : Nat) = 2 ^ 15 := by norm_num
  have h3 : n &&& 0x8000 = 0 := by
    rw [e15, Nat.and_two_pow, Nat.testBit_lt_two_pow (by omega)]
    simp
  rw [h3, Nat.zero_or]
  simp

theorem packWord_of_neg {m : Nat} (h0 : 1 ≤ m) (h1 : m ≤ 32767) :
    packWord (-(m : Int)) = 32768 + (m : Int) := by
  unfold packWord
  have h2 : (-(m : Int)) % 65536 = ((32768 + (32768 - m) : Nat) : Int) := by omega
  rw [h2, Int.toNat_natCast]
  have e15 : (32768 : Nat) = 2 ^ 15 := by norm_num
  have h3 : (32768 + (32768 - m)) &&& 0x8000 = 2 ^ 15 := by
    have e15m : (0x8000 : Nat) = 2 ^ 15 := by norm_num
    rw [e15m, Nat.and_two_pow]
    rw [Nat.testBit_two_pow_add_eq, Nat.testBit_lt_two_pow (by omega)]
    simp
  have h4 : (-(m : Int)).natAbs = m := by
    simp
  rw [h3, h4]
  have h5 : 2 ^ 15 ||| m = 2 ^ 15 + m := by
    have h6 := Nat.mul_add_lt_is_or (b := m) (i := 15) (by omega) 1
    simpa using h6.symm
  rw [h5]
  push_cast
  norm_num

theorem unpackSign_of_nonneg {c : Int} (h0 : 0 ≤ c) (h1 : c ≤ 32767) :
    unpackSign c = 0 := by
  obtain ⟨n, rfl⟩ := Int.eq_ofNat_of_zero_le h0
  have hn : n < 32768 := by omega
  show Int.ofNat (n >>> 15) = 0
  rw [Nat.shiftRight_eq_div_pow, Nat.div_eq_of_lt (by omega)]
  rfl

theorem unpackMag_of_nonneg {c : Int} (h0 : 0 ≤ c) (h1 : c ≤ 32767) :
    unpackMag c = c := by
  obtain ⟨n, rfl⟩ := Int.eq_ofNat_of_zero_le h0
  have hn : n < 32768 := by omega
  unfold unpackMag
  have h2 : ((n : Int) % 65536) = (n : Int) := by omega
  rw [h2, Int.toNat_natCast]
  have e15 : (0x7FFF : Nat) = 2 ^ 15 - 1 := by norm_num
  rw [e15, Nat.and_pow_two_sub_one_of_lt_two_pow (by omega)]

theorem unpackSign_of_stored_neg {m : Nat} (h0 : 1 ≤ m) (h1 : m ≤ 32767) :
    unpackSign ((m : Int) - 32768) = -1 := by
  have hc : (m : Int) - 32768 = Int.negSucc (32767 - m) := by
    rw [Int.negSucc_eq]; omega
  rw [hc]
  show Int.negSucc ((32767 - m) >>> 15) = -1
  rw [Nat.shiftRight_eq_div_pow, Nat.div_eq_of_lt (by omega)]
  rfl

theorem unpackMag_of_stored_neg {m : Nat} (h0 : 1 ≤ m) (h1 : m ≤ 32767) :
    unpackMag ((m : Int) - 32768) = (m : Int) := by
  unfold unpackMag
  have h2 : ((m : Int) - 32768) % 65536 = ((2 ^ 15 * 1 + m : Nat) : Int) := by
    push_cast; omega
  rw [h2, Int.toNat_natCast]
  rw [Nat.mul_add_lt_is_or (by omega) 1]
  have e15 : (0x7FFF : Nat) = 2 ^ 15 - 1 := by norm_num
  rw [e15, Nat.and_distrib_right, Nat.and_pow_two_sub_one_of_lt_two_pow (by omega : m < 2 ^ 15)]
  have h3 : (2 ^ 15 * 1) &&& (2 ^ 15 - 1) = 0 := by decide
  rw [h3, Nat.zero_or]

theorem unpackWord_of_nonneg {c : Int} (h0 : 0 ≤ c) (h1 : c ≤ 32767) :
    unpackWord c = c := by
  unfold unpackWord
  rw [unpackSign_of_nonneg h0 h1, unpackMag_of_nonneg h0 h1]
  ring

theorem unpackWord_of_stored_neg {m : Nat} (h0 : 1 ≤ m) (h1 : m ≤ 32767) :
    unpackWord ((m : Int) - 32768) = -(m : Int) := by
  unfold unpackWord
  rw [unpackSign_of_stored_neg h0 h1, unpackMag_of_stored_neg h0 h1]
  ring

theorem roundtrip_word {x : Int} (h : x.natAbs ≤ 32767) :
    unpackWord (toInt16 (packWord x)) = x := by
  rcases le_or_lt 0 x with hx | hx
  · have hx1 : x ≤ 32767 := by omega
    rw [packWord_of_nonneg hx hx1, toInt16_eq_self (by omega) hx1,
      unpackWord_of_nonneg hx hx1]
  · have hm : x = -(x.natAbs : Int) := by omega
    have h0 : 1 ≤ x.natAbs := by omega
    rw [hm, packWord_of_neg h0 h]
    have h2 : toInt16 (32768 + (x.natAbs : Int)) = (x.natAbs : Int) - 32768 := by
      unfold toInt16; omega
    rw [h2, unpackWord_of_stored_neg h0 h]

/-! The binaural decorrelator (src/intercom_binaural.py) and the
decorrelation used by the wavelet pipeline (src/intercom_dwt.py line 112). -/

/-- Line 24 of src/intercom_binaural.py: `indata[:,0] -= indata[:,1]`
(plain mode: channel 0 becomes the residue, channel 1 the reference). -/
def binaural_decorrelate (c : Chunk) : Chunk :=
  ⟨List.zipWith sub16 c.ch0 c.ch1, c.ch1⟩

/-- Line 26 of src/intercom_binaural.py: `buffer_slot[:,0] += buffer_slot[:,1]`,
the exact integer inverse of `binaural_decorrelate`. -/
def binaural_recorrelate (c : Chunk) : Chunk :=
  ⟨List.zipWith add16 c.ch0 c.ch1, c.ch1⟩

/-- Line 112 of src/intercom_dwt.py: `indata[:,1] -= indata[:,0]`
(transform mode: channel 1 becomes the residue, channel 0 the reference). -/
def dwt_decorrelate (c : Chunk) : Chunk :=
  ⟨c.ch0, List.zipWith sub16 c.ch1 c.ch0⟩

/-- Line 123 of src/intercom_dwt.py: `buffer_slot[:,1] += buffer_slot[:,0]`. -/
def dwt_recorrelate (c : Chunk) : Chunk :=
  ⟨c.ch0, List.zipWith add16 c.ch1 c.ch0⟩

/-- Lines 17 to 19 of src/intercom_binaural.py: `init` installs the stereo
decorrelating handler only when `number_of_channels == 2`; otherwise the
inherited handler runs and no decorrelation is applied to the chunk. -/
def binaural_stage (number_of_channels : Nat) (c : Chunk) : Chunk :=
  if number_of_channels = 2 then binaural_decorrelate c else c

theorem zip_sub_add {l0 l1 : List Int} (hlen : l0.length = l1.length)
    (h : ∀ x ∈ l0, -32768 ≤ x ∧ x ≤ 32767) :
    List.zipWith add16 (List.zipWith sub16 l0 l1) l1 = l0 := by
  induction l0 generalizing l1 with
  | nil => cases l1 with
    | nil => rfl
    | cons b bs => simp at hlen
  | cons a as ih =>
    cases l1 with
    | nil => simp at hlen
    | cons b bs =>
      have ha := h a (by simp)
      have hab : add16 (sub16 a b) b = a := by
        unfold add16 sub16 toInt16
        omega
      simp only [List.zipWith, hab, List.cons.injEq, true_and]
      exact ih (by simpa using hlen) (fun x hx => h x (by simp [hx]))

/-- C1: for every signed coefficient array whose element magnitudes fit the
15 magnitude bits of the packed sign-magnitude word (the calibrated width of
the 16-bit layout masks 0x8000 and 0x7FFF), unpacking the stored result of
packing the array returns it exactly: pack puts the sign in the top bit and
the absolute magnitude in the remaining bits, and unpack is its exact
inverse on that range. -/
theorem pack_unpack_roundtrip (A : List Int)
    (h : ∀ x ∈ A, x.natAbs ≤ 32767) :
    ((A.map packWord).map toInt16).map unpackWord = A := by
  induction A with
  | nil => rfl
  | cons a as ih =>
    simp only [List.map_cons, List.cons.injEq]
    exact ⟨roundtrip_word (h a (by simp)), ih (fun x hx => h x (by simp [hx]))⟩

/-- C1 witness: the round trip evaluated on a concrete coefficient array. -/
theorem pack_unpack_roundtrip_witness :
    (∀ x ∈ [(0 : Int), 1, -1, 32767, -32767, 12345, -20000],
        x.natAbs ≤ 32767) ∧
    ((([(0 : Int), 1, -1, 32767, -32767, 12345, -20000].map packWord).map
        toInt16).map unpackWord = [(0 : Int), 1, -1, 32767, -32767, 12345, -20000]) :=
  ⟨by decide, pack_unpack_roundtrip _ (by decide)⟩

/-- C2 counterexample: for the packed word of the sample -5 the sign array
entry computed by line 119 (`chunk >> 15`, an arithmetic shift of the signed
stored word) is -1, not 1; and with the claimed sign value 1 the claimed
recombination `m + m*s*2` yields 3·m = 15, not the negation -5. -/
theorem unpack_sign_value_counterexample :
    unpackSign (toInt16 (packWord (-5))) = -1 ∧
    unpackSign (toInt16 (packWord (-5))) ≠ 1 ∧
    unpackMag (toInt16 (packWord (-5))) = 5 ∧
    unpackMag (toInt16 (packWord (-5))) +
      unpackMag (toInt16 (packWord (-5))) * 1 * 2 = 15 := by
  decide

/-- C2 (amended): for every packed word produced by the pack step and stored
as a signed 16-bit word, the unpack step splits it into the arithmetic-shift
sign value `s = word >> 15` — which is 0 when the sign bit is clear and -1
(not 1) when it is set — and the magnitude `m` from the remaining 15 bits,
and the recombination `m + m*s*2` evaluates to `+m` when `s = 0` and to
`-m` when `s = -1`. -/
theorem unpack_split_recombine (x : Int) (h : x.natAbs ≤ 32767) :
    (0 ≤ x →
      unpackSign (toInt16 (packWord x)) = 0 ∧
      unpackWord (toInt16 (packWord x)) = unpackMag (toInt16 (packWord x))) ∧
    (x < 0 →
      unpackSign (toInt16 (packWord x)) = -1 ∧
      unpackWord (toInt16 (packWord x)) = -unpackMag (toInt16 (packWord x))) := by
  constructor
  · intro hx
    have hx1 : x ≤ 32767 := by omega
    rw [packWord_of_nonneg hx hx1, toInt16_eq_self (by omega) hx1]
    refine ⟨unpackSign_of_nonneg hx hx1, ?_⟩
    unfold unpackWord
    rw [unpackSign_of_nonneg hx hx1]
    ring
  · intro hx
    have hm : x = -(x.natAbs : Int) := by omega
    have h0 : 1 ≤ x.natAbs := by omega
    rw [hm, packWord_of_neg h0 h]
    have h2 : toInt16 (32768 + (x.natAbs : Int)) = (x.natAbs : Int) - 32768 := by
      unfold toInt16; omega
    rw [h2]
    refine ⟨unpackSign_of_stored_neg h0 h, ?_⟩
    unfold unpackWord
    rw [unpackSign_of_stored_neg h0 h]
    ring

/-- C2 witness: the amended statement evaluated at the sample -7. -/
theorem unpack_split_recombine_witness :
    (-7 : Int).natAbs ≤ 32767 ∧
    ((0 ≤ (-7 : Int) →
      unpackSign (toInt16 (packWord (-7))) = 0 ∧
      unpackWord (toInt16 (packWord (-7))) = unpackMag (toInt16 (packWord (-7)))) ∧
    ((-7 : Int) < 0 →
      unpackSign (toInt16 (packWord (-7))) = -1 ∧
      unpackWord (toInt16 (packWord (-7))) = -unpackMag (toInt16 (packWord (-7))))) :=
  ⟨by decide, unpack_split_recombine (-7) (by decide)⟩

/-- C4: for every stereo chunk of fixed-width integer samples, the
decorrelation inverse (adding the reference channel back into the residue)
undoes the forward step exactly, in both variants: plain mode
(`channel0 -= channel1`, src/intercom_binaural.py) and transform mode
(`channel1 -= channel0`, src/intercom_dwt.py); integer arithmetic, no
precision loss. -/
theorem decorrelate_roundtrip (c : Chunk)
    (hlen : c.ch0.length = c.ch1.length)
    (h0 : ∀ x ∈ c.ch0, -32768 ≤ x ∧ x ≤ 32767)
    (h1 : ∀ x ∈ c.ch1, -32768 ≤ x ∧ x ≤ 32767) :
    binaural_recorrelate (binaural_decorrelate c) = c ∧
    dwt_recorrelate (dwt_decorrelate c) = c := by
  obtain ⟨l0, l1⟩ := c
  constructor
  · unfold binaural_decorrelate binaural_recorrelate
    simp only [Chunk.mk.injEq, and_true]
    exact zip_sub_add hlen h0
  · unfold dwt_decorrelate dwt_recorrelate
    simp only [Chunk.mk.injEq, true_and]
    exact zip_sub_add hlen.symm h1

/-- C4 witness: both round trips evaluated on a concrete stereo chunk that
exercises wraparound of the residue. -/
theorem decorrelate_roundtrip_witness :
    ((Chunk.mk [100, -32768, 32767] [7, 32767, -32768]).ch0.length =
      (Chunk.mk [100, -32768, 32767] [7, 32767, -32768]).ch1.length) ∧
    (binaural_recorrelate (binaural_decorrelate
        (Chunk.mk [100, -32768, 32767] [7, 32767, -32768])) =
      Chunk.mk [100, -32768, 32767] [7, 32767, -32768] ∧
    dwt_recorrelate (dwt_decorrelate
        (Chunk.mk [100, -32768, 32767] [7, 32767, -32768])) =
      Chunk.mk [100, -32768, 32767] [7, 32767, -32768]) :=
  ⟨by decide, decorrelate_roundtrip _ (by decide) (by decide) (by decide)⟩

/-- C9: a session with exactly one channel never gets the stereo
decorrelating handler installed (src/intercom_binaural.py lines 17 to 19),
so the decorrelation stage is a pass-through: every mono chunk is left
unmodified. -/
theorem mono_passthrough (c : Chunk) : binaural_stage 1 c = c := by
  simp [binaural_stage]

/-- C10: for every sample with -32767 ≤ x ≤ 32767 the packed word
`(x & 0x8000) | abs(x)` lies in [0, 65535] and has bit 15 set exactly when
x is negative; in particular every packed output value is non-negative. -/
theorem packWord_range_and_sign (x : Int) (h0 : -32767 ≤ x) (h1 : x ≤ 32767) :
    0 ≤ packWord x ∧ packWord x ≤ 65535 ∧
      ((packWord x).toNat.testBit 15 = true ↔ x < 0) := by
  rcases le_or_lt 0 x with hx | hx
  · rw [packWord_of_nonneg hx h1]
    refine ⟨hx, by omega, ?_⟩
    obtain ⟨n, rfl⟩ := Int.eq_ofNat_of_zero_le hx
    rw [Int.toNat_natCast, Nat.testBit_lt_two_pow (by omega)]
    simp
  · have hm : x = -(x.natAbs : Int) := by omega
    have ha : 1 ≤ x.natAbs := by omega
    have hb : x.natAbs ≤ 32767 := by omega
    rw [hm, packWord_of_neg ha hb]
    refine ⟨by positivity, by omega, ?_⟩
    have h2 : ((32768 : Int) + (x.natAbs : Int)).toNat = 2 ^ 15 + x.natAbs := by
      omega
    rw [h2, Nat.testBit_two_pow_add_eq, Nat.testBit_lt_two_pow (by omega)]
    simp
    omega

/-- C10 witness: the invariant evaluated at the sample -7. -/
theorem packWord_range_and_sign_witness :
    (-32767 ≤ (-7 : Int) ∧ (-7 : Int) ≤ 32767) ∧
    (0 ≤ packWord (-7) ∧ packWord (-7) ≤ 65535 ∧
      ((packWord (-7)).toNat.testBit 15 = true ↔ (-7 : Int) < 0)) :=
  ⟨⟨by decide, by decide⟩, packWord_range_and_sign (-7) (by decide) (by decide)⟩

/-! Calibration (src/intercom_dwt.py lines 94 to 101) and the per-period
orchestration (lines 111 to 126). -/

/-- Line 97: `np.amax(arr)` over the flattened, nonempty coefficient array
`a :: rest`. -/
def amax (a : Int) (rest : List Int) : Int := rest.foldl max a

/-- Line 98: `np.amin(arr)` over the same array. -/
def amin (a : Int) (rest : List Int) : Int := rest.foldl min a

/-- Lines 95 to 101, `get_coeffs_bitplanes`, as a function of the flattened
probe coefficient array (the `wavedec`/`coeffs_to_array` output; pywt and the
random probe are external).  `math.log` raises ValueError on a non-positive
argument, modelled as `none`, which aborts `init`; on a positive integer
argument, `floor(log(range)/log(2))` — with the external `math.log` modelled
as the exact real logarithm — is `Nat.log 2 range`, the floor of log₂. -/
def get_coeffs_bitplanes (a : Int) (rest : List Int) : Option Nat :=
  let mx := amax a rest
  let mn := amin a rest
  let range := mx - mn
  if 0 < range then some (Nat.log 2 range.toNat) else none

/-- Session state of the wavelet pipeline.  The buffer, the played-chunk
counter and the per-slot received-bitplanes counters live in the external
`Intercom_buffer`/`Intercom_bitplanes` layers (not under src/) and are
modelled from the spec (§6); `sent` and `played` log the chunks handed to
the transport and to the playback device. -/
structure DWTState where
  precision_bits : Nat
  cells_in_buffer : Nat
  played_chunk_number : Nat
  buffer : List Chunk
  received_bitplanes_per_chunk : List Nat
  sent : List Chunk
  played : List Chunk
deriving DecidableEq

/-- Lines 80 to 90, `Intercom_DWT.init`: run the calibration once and enter
the Ready state.  The fields owned by the external buffer layers are taken
as parameters (modelled from the spec).  A calibration failure propagates
out of `init` (none): the session does not proceed. -/
def dwt_init (a : Int) (rest : List Int) (cells : Nat) (buf : List Chunk)
    (recv : List Nat) : Option DWTState :=
  (get_coeffs_bitplanes a rest).map fun b =>
    { precision_bits := b, cells_in_buffer := cells, played_chunk_number := 0,
      buffer := buf, received_bitplanes_per_chunk := recv, sent := [],
      played := [] }

/-- Lines 114 to 116 applied to the whole two-channel array. -/
def packChunk (c : Chunk) : Chunk :=
  ⟨c.ch0.map packWord, c.ch1.map packWord⟩

/-- Lines 118 to 122 applied to the whole two-channel buffer slot. -/
def unpackChunk (c : Chunk) : Chunk :=
  ⟨c.ch0.map unpackWord, c.ch1.map unpackWord⟩

/-- Lines 118 to 124 of src/intercom_dwt.py, the play path exactly as the
code performs it: unpack the buffered chunk (lines 118 to 122), re-correlate
`chunk[:,1] += chunk[:,0]` (line 123), and only then hand the whole
two-channel slot to `inverse_transform` (line 124), kept abstract here as
`inv` because pywt is external. -/
def dwt_play_path (inv : Chunk → Chunk) (c : Chunk) : Chunk :=
  let chunk := unpackChunk c
  let chunk2 := dwt_recorrelate chunk
  inv chunk2

/-- Play path as the spec words it (comparison definition for the refinement
claim): unpack, inverse-transform channel 0 only, then re-correlate; the
residue channel never enters the transform. -/
def spec_play_path (inv1 : List Int → List Int) (c : Chunk) : Chunk :=
  let u := unpackChunk c
  let t : Chunk := ⟨inv1 u.ch0, u.ch1⟩
  dwt_recorrelate t

/-- Lines 111 to 126, `record_send_and_play_stereo`, as a transition on the
session state, parametric over the external pywt transforms (`fwd` is
`forward_transform` on one channel, line 113; `inv` is `inverse_transform`
as invoked on the whole buffered chunk, line 124).  Modelled from the spec:
the external `Intercom_buffer` stores 16-bit words, `play` emits the
processed slot, and the monotone played-chunk counter advances once per
period, at the end of the callback. -/
def record_send_and_play_stereo (fwd : List Int → List Int)
    (inv : Chunk → Chunk) (indata : Chunk) (s : DWTState) : DWTState :=
  let d := dwt_decorrelate indata
  let t : Chunk := ⟨fwd d.ch0, d.ch1⟩
  let packed := packChunk t
  let idx := s.played_chunk_number % s.cells_in_buffer
  let out := dwt_play_path inv (s.buffer.getD idx ⟨[], []⟩)
  { s with
    sent := packed :: s.sent,
    buffer := s.buffer.set idx out,
    played := out :: s.played,
    received_bitplanes_per_chunk := s.received_bitplanes_per_chunk.set idx 0,
    played_chunk_number := s.played_chunk_number + 1 }

/-- Modelled from the spec (external pywt): with mode `"periodization"` one
DWT level produces approximation and detail coefficient vectors of length
⌈n/2⌉ each, for any wavelet. -/
def dwt_coeff_len (n : Nat) : Nat := (n + 1) / 2

/-- Total length of the flattened `wavedec` output (`coeffs_to_array`) for
`l` levels on an input of length `n`: the deepest approximation vector plus
every detail vector. -/
def wavedec_len : Nat → Nat → Nat
  | 0, n => n
  | l + 1, n => wavedec_len l (dwt_coeff_len n) + dwt_coeff_len n

/-- Lines 128 to 130, `forward_transform`, output length with the session
constants fixed by `init` (levels = 4, wavelet bior3.5, periodization). -/
def forward_transform_len (n : Nat) : Nat := wavedec_len 4 n

theorem wavedec_len_ge (l : Nat) : ∀ n, n ≤ wavedec_len l n := by
  induction l with
  | zero => intro n; exact Nat.le_refl n
  | succ l ih =>
    intro n
    have h := ih (dwt_coeff_len n)
    show n ≤ wavedec_len l (dwt_coeff_len n) + dwt_coeff_len n
    unfold dwt_coeff_len at *
    omega

theorem getD_set_self {α : Type} (l : List α) (i : Nat) (v d : α)
    (h : i < l.length) : (l.set i v).getD i d = v := by
  induction l generalizing i with
  | nil => simp at h
  | cons a as ih =>
    cases i with
    | zero => rfl
    | succ j => exact ih j (by simpa using h)

/-- C3 (code bug): the send path of `record_send_and_play_stereo` does
follow decorrelate → transform channel 0 → pack, but the play path does not
follow unpack → inverse-transform channel 0 → re-correlate: the code
re-correlates first (line 123) and then passes the whole two-channel slot to
`inverse_transform` (line 124), so the residue channel is fed through the
inverse transform — contradicting the code's own comment that only the
first channel is transformed.  First conjunct: the code's play path is the
inverse transform applied after re-correlation to both channels.  Second
conjunct: for a channel-wise inverse transform (doubling, as a stand-in
linear transform) the code's play path differs from the spec's ordering on
a concrete buffered chunk, and the inverse transform output determines the
played residue channel. -/
theorem play_path_order_bug :
    (∀ (inv : Chunk → Chunk) (c : Chunk),
        dwt_play_path inv c = inv (dwt_recorrelate (unpackChunk c))) ∧
    (∃ inv : Chunk → Chunk, ∃ inv1 : List Int → List Int,
        (∀ a b : List Int, inv ⟨a, b⟩ = ⟨inv1 a, inv1 b⟩) ∧
        dwt_play_path inv ⟨[1], [1]⟩ ≠ spec_play_path inv1 ⟨[1], [1]⟩) := by
  refine ⟨fun inv c => rfl, ?_⟩
  refine ⟨fun c => ⟨c.ch0.map (· * 2), c.ch1.map (· * 2)⟩,
    fun l => l.map (· * 2), fun a b => rfl, ?_⟩
  decide

/-- C5: when the probe coefficient range `max - min` is non-positive,
calibration fails loudly (`math.log` raises, modelled as `none`) instead of
returning a zero or negative bitplane count, and `init` — hence the session
— does not proceed. -/
theorem calibration_fails_on_degenerate (a : Int) (rest : List Int)
    (cells : Nat) (buf : List Chunk) (recv : List Nat)
    (h : amax a rest - amin a rest ≤ 0) :
    get_coeffs_bitplanes a rest = none ∧
    dwt_init a rest cells buf recv = none := by
  have hnone : get_coeffs_bitplanes a rest = none := by
    unfold get_coeffs_bitplanes
    rw [if_neg (by omega)]
  exact ⟨hnone, by unfold dwt_init; rw [hnone]; rfl⟩

/-- C5 witness: calibration on a constant probe coefficient array fails. -/
theorem calibration_fails_on_degenerate_witness :
    amax 5 [5] - amin 5 [5] ≤ 0 ∧
    (get_coeffs_bitplanes 5 [5] = none ∧ dwt_init 5 [5] 1 [] [] = none) :=
  ⟨by decide, calibration_fails_on_degenerate 5 [5] 1 [] [] (by decide)⟩

/-- C6: the session bitplane count is `floor(log2(max - min))` of the
forward-transformed probe's coefficient array, fixed by `init` at session
start, and no later invocation of `record_send_and_play_stereo` ever changes
it — it is computed exactly once, before any audio flows. -/
theorem calibration_formula_and_once (a : Int) (rest : List Int)
    (cells : Nat) (buf : List Chunk) (recv : List Nat)
    (h : 0 < amax a rest - amin a rest) :
    (dwt_init a rest cells buf recv).map DWTState.precision_bits =
      some (Nat.log 2 (amax a rest - amin a rest).toNat) ∧
    ∀ (fwd : List Int → List Int) (inv : Chunk → Chunk) (ind : Chunk)
      (s : DWTState),
      (record_send_and_play_stereo fwd inv ind s).precision_bits =
        s.precision_bits := by
  constructor
  · unfold dwt_init get_coeffs_bitplanes
    rw [if_pos (by omega)]
    rfl
  · intro fwd inv ind s
    rfl

/-- C6 witness: the calibration formula and its immutability evaluated on a
concrete probe coefficient array of range 3. -/
theorem calibration_formula_and_once_witness :
    0 < amax 0 [3] - amin 0 [3] ∧
    ((dwt_init 0 [3] 1 [] []).map DWTState.precision_bits =
      some (Nat.log 2 (amax 0 [3] - amin 0 [3]).toNat) ∧
    ∀ (fwd : List Int → List Int) (inv : Chunk → Chunk) (ind : Chunk)
      (s : DWTState),
      (record_send_and_play_stereo fwd inv ind s).precision_bits =
        s.precision_bits) :=
  ⟨by decide, calibration_formula_and_once 0 [3] 1 [] [] (by decide)⟩

/-- C7: the flattened forward transform of a length-n channel (wavedec,
4 levels, periodization, flattened by coeffs_to_array) has length at least
n — with periodization each level yields ⌈·/2⌉-length halves, so the total
never shrinks. -/
theorem forward_transform_len_ge (n : Nat) : n ≤ forward_transform_len n :=
  wavedec_len_ge 4 n

/-- C8: after one invocation of `record_send_and_play_stereo`, the
received-bitplanes counter of the slot just played (index
`played_chunk_number % cells_in_buffer` of the pre-step state) is zero —
the reset is the last action of the callback, right after the chunk is
unpacked and played. -/
theorem received_counter_reset (fwd : List Int → List Int)
    (inv : Chunk → Chunk) (ind : Chunk) (s : DWTState)
    (h : s.played_chunk_number % s.cells_in_buffer <
      s.received_bitplanes_per_chunk.length) :
    (record_send_and_play_stereo fwd inv ind
        s).received_bitplanes_per_chunk.getD
      (s.played_chunk_number % s.cells_in_buffer) 1 = 0 := by
  unfold record_send_and_play_stereo
  exact getD_set_self _ _ _ _ h

/-- C8 witness: the reset evaluated on a concrete one-cell session state
whose counter was 5 before the period. -/
theorem received_counter_reset_witness :
    ((DWTState.mk 17 1 0 [Chunk.mk [1] [1]] [5] [] []).played_chunk_number %
        (DWTState.mk 17 1 0 [Chunk.mk [1] [1]] [5] [] []).cells_in_buffer <
      (DWTState.mk 17 1 0 [Chunk.mk [1] [1]]
        [5] [] []).received_bitplanes_per_chunk.length) ∧
    (record_send_and_play_stereo id id (Chunk.mk [1] [1])
        (DWTState.mk 17 1 0 [Chunk.mk [1] [1]]
          [5] [] [])).received_bitplanes_per_chunk.getD
      ((DWTState.mk 17 1 0 [Chunk.mk [1] [1]] [5] [] []).played_chunk_number %
        (DWTState.mk 17 1 0 [Chunk.mk [1] [1]] [5] [] []).cells_in_buffer) 1 = 0 :=
  ⟨by decide,
    received_counter_reset id id (Chunk.mk [1] [1])
      (DWTState.mk 17 1 0 [Chunk.mk [1] [1]] [5] [] []) (by decide)⟩

end InterCom
